import Mathlib

/-!
Shallow embedding of the aggregation / analysis core of the Data-Analysis
repository (src/src/data_aggregator.py and src/src/data_analyzer.py).

A `Record` is one CSV row: an association list from column name to the raw
cell string (Python `Dict[str, str]`, insertion ordered, unique keys).
Python floats are modelled by `ℚ` (exact arithmetic); `float(s)` on a string
is modelled by the decimal parser `parseFloat?`, and a parse failure
(Python `ValueError`) by `none`.  Python `dict`s built by the reduce
pipelines are modelled as insertion-ordered association lists where updating
an existing key keeps its position and a new key is appended — exactly the
semantics of `{**acc, k: v}` and of in-place `dict` mutation.  Python's
`sorted` (a stable sort) is modelled by a stable insertion sort; any two
stable sorts with the same total boolean relation agree extensionally.
-/

namespace DataAnalysis

/-- One CSV row: column name ↦ raw cell value. -/
abbrev Record := List (String × String)

/-- Python `row.get(col)` — `none` models Python `None` (key absent). -/
def getCell (r : Record) (c : String) : Option String :=
  r.lookup c

/-- Numeric value of a run of decimal digits. -/
def digitsToNat (cs : List Char) : ℕ :=
  cs.foldl (fun n c => n * 10 + (c.toNat - 48)) 0

/-- Models Python `float(s)` on plain decimal literals:
optional sign, then digits with an optional fractional part
(`"12"`, `"-3.5"`, `"1."`, `".5"` parse; `""`, `"abc"`, `"1.2.3"` do not).
Exponents, `inf`/`nan` and surrounding whitespace are not modelled; the
theorems below quantify over arbitrary data and do not depend on which
strings parse, only on `parseFloat?` being a fixed function. -/
def parseFloat? (s : String) : Option ℚ :=
  let cs := s.data
  let sign : ℚ := match cs with
    | '-' :: _ => -1
    | _ => 1
  let body : List Char := match cs with
    | '-' :: r => r
    | '+' :: r => r
    | r => r
  let ip := body.takeWhile (fun c => c ≠ '.')
  let rest := body.dropWhile (fun c => c ≠ '.')
  match rest with
  | [] =>
    if ip ≠ [] ∧ ip.all Char.isDigit then
      some (sign * (digitsToNat ip : ℚ))
    else none
  | _ :: fp =>
    if (ip ++ fp) ≠ [] ∧ ip.all Char.isDigit ∧ fp.all Char.isDigit then
      some (sign * ((digitsToNat ip : ℚ) + (digitsToNat fp : ℚ) / 10 ^ fp.length))
    else none

/-- Python `_is_valid_number(row.get(col))`: `float(val)` succeeds.
`none` (absent key → Python `None`) raises `TypeError`, hence `false`. -/
def isValidNumber (v : Option String) : Bool :=
  match v with
  | none => false
  | some s => (parseFloat? s).isSome

/-- Python `row.get(col, "Unknown")`: the group key of a row.
Note an empty cell value yields the key `""`, not `"Unknown"` — the
default applies only when the key is absent. -/
def getKey (r : Record) (c : String) : String :=
  (getCell r c).getD "Unknown"

/-- Stable ascending insertion: `a` goes after every element `b` with
`le b a`, so elements inserted later stay after equal earlier ones. -/
def insertAsc {α : Type} (le : α → α → Bool) (a : α) : List α → List α
  | [] => [a]
  | b :: bs => if le b a then b :: insertAsc le a bs else a :: b :: bs

/-- Stable sort (models Python `sorted`, which is stable). -/
def stableSort {α : Type} (le : α → α → Bool) (l : List α) : List α :=
  l.foldl (fun acc x => insertAsc le x acc) []

/-! ### data_aggregator.py / data_analyzer.py — the shared grouping stream

`aggregate` (data_aggregator.py lines 44–60) and `rank`
(data_analyzer.py lines 42–58) contain the textually identical
filter/map/reduce pipeline; it is embedded once here. -/

/-- Stream 1 of `aggregate` and of `rank`: keep rows whose `valueCol`
parses, yielding `(row.get(groupCol, "Unknown"), float(value))`. -/
def keyValuePairs (data : List Record) (groupCol valueCol : String) :
    List (String × ℚ) :=
  data.filterMap (fun row =>
    match getCell row valueCol with
    | none => none
    | some s =>
      match parseFloat? s with
      | none => none
      | some q => some (getKey row groupCol, q))

/-- `{**acc, k: acc.get(k, []) + [v]}`: update keeps the key's position,
a new key is appended. -/
def upsertList (m : List (String × List ℚ)) (k : String) (v : ℚ) :
    List (String × List ℚ) :=
  match m with
  | [] => [(k, [v])]
  | (k', vs) :: rest =>
    if k' = k then (k', vs ++ [v]) :: rest
    else (k', vs) :: upsertList rest k v

/-- Stream 2 of `aggregate`/`rank`: reduce the stream into
group ↦ list of values (group-discovery order). -/
def groupPairs (ps : List (String × ℚ)) : List (String × List ℚ) :=
  ps.foldl (fun acc p => upsertList acc p.1 p.2) []

/-- The `ops` table of `aggregate` (sum/avg/min/max/count); `ops.get(op,
ops["sum"])` makes every unrecognised name behave as `"sum"`. -/
def aggOp (op : String) (vs : List ℚ) : ℚ :=
  if op = "avg" then (if vs = [] then 0 else vs.sum / vs.length)
  else if op = "min" then (match vs with | [] => 0 | x :: xs => xs.foldl min x)
  else if op = "max" then (match vs with | [] => 0 | x :: xs => xs.foldl max x)
  else if op = "count" then (vs.length : ℚ)
  else vs.sum

/-- `DataAggregator.aggregate` (data_aggregator.py lines 31–73).
Raises `ValueError` when either column is not among the headers. -/
def aggregate (data : List Record) (headers : List String)
    (groupCol valueCol op : String) : Except String (List (String × ℚ)) :=
  if groupCol ∉ headers ∨ valueCol ∉ headers then
    .error ("Invalid columns: " ++ groupCol ++ ", " ++ valueCol)
  else
    .ok ((groupPairs (keyValuePairs data groupCol valueCol)).map
      (fun kv => (kv.1, aggOp op kv.2)))

/-- `DataAggregator.group_and_count` (lines 172–186): count ↦ position-
preserving update, new key appended. -/
def upsertCount (m : List (String × ℕ)) (k : String) : List (String × ℕ) :=
  match m with
  | [] => [(k, 1)]
  | (k', n) :: rest =>
    if k' = k then (k', n + 1) :: rest
    else (k', n) :: upsertCount rest k

def groupAndCount (data : List Record) (groupCol : String) :
    List (String × ℕ) :=
  data.foldl (fun acc row => upsertCount acc (getKey row groupCol)) []

/-- One reduce step of `DataAggregator.cross_tabulation` (lines 196–203):
`acc[key1][key2] = acc[key1].get(key2, 0) + 1`, creating `acc[key1]`
when absent. -/
def upsertCross (m : List (String × List (String × ℕ))) (k1 k2 : String) :
    List (String × List (String × ℕ)) :=
  match m with
  | [] => [(k1, [(k2, 1)])]
  | (k, inner) :: rest =>
    if k = k1 then (k, upsertCount inner k2) :: rest
    else (k, inner) :: upsertCross rest k1 k2

/-- `DataAggregator.cross_tabulation` (lines 188–205). -/
def crossTabulation (data : List Record) (col1 col2 : String) :
    List (String × List (String × ℕ)) :=
  data.foldl (fun acc row => upsertCross acc (getKey row col1) (getKey row col2)) []

/-! ### data_aggregator.py — `group_by_multi` (lines 75–113)

The nested result dictionary is modelled by the inductive `NVal`:
an inner node is again an insertion-ordered association list. -/

inductive NVal where
  | leaf (q : ℚ)
  | node (m : List (String × NVal))
deriving Repr

abbrev NMap := List (String × NVal)

/-- Position-preserving update of one key of a nested-dict level
(the semantics of in-place `dict` assignment / `setdefault`). -/
def upsertN (m : NMap) (k : String) (f : Option NVal → NVal) : NMap :=
  match m with
  | [] => [(k, f none)]
  | (k', v) :: rest =>
    if k' = k then (k', f (some v)) :: rest else (k', v) :: upsertN rest k f

/-- The `build_nested` reduce step (lines 103–111): walk `keys[:-1]` with
`setdefault(key, {})`, then `current[last] = current.get(last, 0) + val`.
All key tuples of one call have length `len(group_cols)`, so the
intermediate levels this walk meets are always dicts and the final level
always holds a number; the two `unreachable` arms below cover the
impossible shape mismatches (where a leaf meets an interior position)
by leaving the entry unchanged. -/
def buildNested : NMap → List String → ℚ → NMap
  | acc, [], _ => acc
  | acc, [k], v =>
    upsertN acc k (fun existing =>
      match existing with
      | some (.leaf q) => .leaf (q + v)
      | some (.node m) => .node m      -- unreachable for fixed-length key tuples
      | none => .leaf v)
  | acc, k :: k2 :: rest, v =>
    upsertN acc k (fun existing =>
      match existing with
      | some (.node m) => .node (buildNested m (k2 :: rest) v)
      | some (.leaf q) => .leaf q      -- unreachable for fixed-length key tuples
      | none => .node (buildNested [] (k2 :: rest) v))

/-- Streams 1–2 of `group_by_multi` (lines 88–100): rows whose `valueCol`
parses, mapped to `(tuple(row.get(c, "Unknown") for c in groupCols), value)`. -/
def multiPairs (data : List Record) (groupCols : List String) (valueCol : String) :
    List (List String × ℚ) :=
  data.filterMap (fun row =>
    match getCell row valueCol with
    | none => none
    | some s =>
      match parseFloat? s with
      | none => none
      | some q => some (groupCols.map (fun c => getKey row c), q))

/-- `DataAggregator.group_by_multi` (lines 75–113).  The `op` parameter is
accepted but never consulted: the reduce step always adds the value at the
leaf (`current.get(last_key, 0) + val`). -/
def groupByMulti (data : List Record) (headers : List String)
    (groupCols : List String) (valueCol : String) (op : String) :
    Except String NMap :=
  if groupCols = [] ∨ valueCol ∉ headers then
    .error "Invalid columns specified"
  else
    .ok ((multiPairs data groupCols valueCol).foldl
      (fun acc kv => buildNested acc kv.1 kv.2) [])

/-! ### data_aggregator.py — `compare_metrics` (lines 115–141) -/

/-- `acc[group_key][metric_col].append(float(...))` on the inner dict;
the key is always present (the inner dict is initialised with every
metric column), absence leaves the dict unchanged. -/
def cmAppend (inner : List (String × List ℚ)) (mc : String) (q : ℚ) :
    List (String × List ℚ) :=
  match inner with
  | [] => []
  | (c, vs) :: rest =>
    if c = mc then (c, vs ++ [q]) :: rest else (c, vs) :: cmAppend rest mc q

def cmUpdate (a : List (String × List (String × List ℚ))) (k mc : String) (q : ℚ) :
    List (String × List (String × List ℚ)) :=
  match a with
  | [] => []
  | (k', inner) :: rest =>
    if k' = k then (k', cmAppend inner mc q) :: rest
    else (k', inner) :: cmUpdate rest k mc q

/-- One `accumulate_metrics` reduce step (lines 123–131). -/
def cmStep (groupCol : String) (metricCols : List String)
    (acc : List (String × List (String × List ℚ))) (row : Record) :
    List (String × List (String × List ℚ)) :=
  let k := getKey row groupCol
  let acc1 := if (acc.lookup k).isSome then acc
              else acc ++ [(k, metricCols.map (fun c => (c, ([] : List ℚ))))]
  metricCols.foldl (fun a mc =>
    match getCell row mc with
    | none => a
    | some s =>
      match parseFloat? s with
      | none => a
      | some q => cmUpdate a k mc q) acc1

/-- `DataAggregator.compare_metrics` (lines 115–141):
`calc_avg = lambda vals: sum(vals) / len(vals) if vals else 0`. -/
def compareMetrics (data : List Record) (groupCol : String)
    (metricCols : List String) : List (String × List (String × ℚ)) :=
  (data.foldl (cmStep groupCol metricCols) []).map
    (fun g => (g.1, g.2.map
      (fun m => (m.1, if m.2 = [] then 0 else m.2.sum / m.2.length))))

/-! ### data_analyzer.py — `rank` (lines 31–71) -/

/-- The `ops` table of `rank` (lines 61–65): only sum/avg/count exist here —
unlike `aggregate`, there is no min and no max, and `ops.get(operation,
ops["sum"])` silently turns them (and every other unknown name) into sum. -/
def rankOp (op : String) (vs : List ℚ) : ℚ :=
  if op = "avg" then (if vs = [] then 0 else vs.sum / vs.length)
  else if op = "count" then (vs.length : ℚ)
  else vs.sum

/-- `sorted(results.items(), key=lambda x: x[1], reverse=True)`:
stable descending sort by the value component. -/
def sortDescByValue (l : List (String × ℚ)) : List (String × ℚ) :=
  stableSort (fun a b => decide (b.2 ≤ a.2)) l

/-- `DataAnalyzer.rank` (lines 31–71).  Note: no header validation at all
— unknown columns are silently grouped under `"Unknown"` / filtered out. -/
def rank (data : List Record) (rankCol valueCol : String) (limit : ℕ)
    (op : String) : List (String × ℚ) :=
  (sortDescByValue ((groupPairs (keyValuePairs data rankCol valueCol)).map
    (fun kv => (kv.1, rankOp op kv.2)))).take limit

/-! ### data_analyzer.py — `get_statistics` (lines 99–147) -/

/-- Stream 1 of `get_statistics` (lines 110–118): `row.get(col, 0)` —
an absent key contributes the (valid) number 0, a present cell is kept
only if it parses. -/
def statValues (data : List Record) (col : String) : List ℚ :=
  data.filterMap (fun row =>
    match getCell row col with
    | none => some 0
    | some s => parseFloat? s)

/-- `sorted(values)` ascending (used by `statistics.median` and by
`percentile`). -/
def sortAsc (l : List ℚ) : List ℚ :=
  stableSort (fun a b => decide (a ≤ b)) l

/-- `statistics.median`: middle element of the sorted values for an odd
count, average of the two middle elements for an even count. -/
def medianOf (vs : List ℚ) : ℚ :=
  let s := sortAsc vs
  let n := s.length
  if n % 2 = 1 then s.getD (n / 2) 0
  else (s.getD (n / 2 - 1) 0 + s.getD (n / 2) 0) / 2

/-- `statistics.stdev`: sample standard deviation,
`sqrt(Σ (x − mean)² / (n − 1))` (only called with `n > 1`). -/
noncomputable def sampleStdDev (vs : List ℚ) : ℝ :=
  Real.sqrt ((((vs.map (fun x => (x - vs.sum / vs.length) ^ 2)).sum : ℚ) : ℝ) /
    ((vs.length : ℝ) - 1))

/-- The fixed statistics record returned by `get_statistics`. -/
structure Statistics where
  count : ℕ
  sum : ℚ
  avg : ℚ
  min : ℚ
  max : ℚ
  median : ℚ
  std_dev : ℝ
  range : ℚ

/-- `DataAnalyzer.get_statistics` (lines 99–147). -/
noncomputable def getStatistics (data : List Record) (col : String) : Statistics :=
  match statValues data col with
  | [] => ⟨0, 0, 0, 0, 0, 0, 0, 0⟩
  | v :: vs =>
    let values := v :: vs
    let total := values.foldl (fun acc x => acc + x) 0
    let count := values.length
    let minV := vs.foldl min v
    let maxV := vs.foldl max v
    { count := count
      sum := total
      avg := total / count
      min := minV
      max := maxV
      median := medianOf values
      std_dev := if 1 < count then sampleStdDev values else 0
      range := maxV - minV }

/-! ### data_analyzer.py — `correlate_metrics` (lines 149–210) -/

/-- Stream 1 (lines 159–169): rows where both columns parse. -/
def pairsOf (data : List Record) (c1 c2 : String) : List (ℚ × ℚ) :=
  data.filterMap (fun row =>
    match getCell row c1, getCell row c2 with
    | some s1, some s2 =>
      match parseFloat? s1, parseFloat? s2 with
      | some x, some y => some (x, y)
      | _, _ => none
    | _, _ => none)

/-- The five running sums accumulated by the reduce (lines 176–186). -/
structure CorrSums where
  sum_x : ℚ
  sum_y : ℚ
  sum_xy : ℚ
  sum_x2 : ℚ
  sum_y2 : ℚ

def corrSums (ps : List (ℚ × ℚ)) : CorrSums :=
  ps.foldl (fun a p =>
    ⟨a.sum_x + p.1, a.sum_y + p.2, a.sum_xy + p.1 * p.2,
     a.sum_x2 + p.1 ^ 2, a.sum_y2 + p.2 ^ 2⟩) ⟨0, 0, 0, 0, 0⟩

structure Correlation where
  correlation : ℝ
  strength : String
  direction : String

/-- Python `round(x, 4)`.  (Python rounds half to even; `round` here rounds
half up — the two differ only when `x·10⁴` is exactly a half-integer,
immaterial to every statement below.) -/
noncomputable def round4 (x : ℝ) : ℝ :=
  (round (x * 10000) : ℤ) / 10000

/-- `DataAnalyzer.correlate_metrics` (lines 149–210).  `** 0.5` is `sqrt`:
the radicand `(nΣx²−(Σx)²)(nΣy²−(Σy)²)` is nonnegative (Cauchy–Schwarz). -/
noncomputable def correlateMetrics (data : List Record) (c1 c2 : String) :
    Correlation :=
  let pairs := pairsOf data c1 c2
  if pairs.length < 2 then ⟨0, "none", "none"⟩
  else
    let n : ℚ := pairs.length
    let s := corrSums pairs
    let numerator : ℝ := ((n * s.sum_xy - s.sum_x * s.sum_y : ℚ) : ℝ)
    let denominator : ℝ :=
      Real.sqrt (((n * s.sum_x2 - s.sum_x ^ 2) * (n * s.sum_y2 - s.sum_y ^ 2) : ℚ) : ℝ)
    let correlation : ℝ := if denominator ≠ 0 then numerator / denominator else 0
    let strength :=
      if 0.9 ≤ |correlation| then "perfect"
      else if 0.7 ≤ |correlation| then "strong"
      else if 0.5 ≤ |correlation| then "moderate"
      else if 0 < |correlation| then "weak"
      else "none"
    let direction :=
      if 0 < correlation then "positive"
      else if correlation < 0 then "negative"
      else "none"
    ⟨round4 correlation, strength, direction⟩

/-! ### data_analyzer.py — `percentile` (lines 254–274)

Contrary to its docstring ("Filter: Valid numeric values"), the code maps
`float(row.get(col, 0))` over the rows FIRST and only then filters with
`_is_valid_number` — at which point every element is already a float, so
the filter never rejects anything.  Consequences, both modelled here:
an absent key contributes `float(0) = 0.0`, and a present non-parseable
cell makes `float` raise `ValueError` out of `percentile` (the `none`
result below). -/

/-- `map(lambda row: float(row.get(col, 0)), self.data)`: `none` models the
escaping `ValueError`. -/
def percentileValues (data : List Record) (col : String) : Option (List ℚ) :=
  data.mapM (fun row =>
    match getCell row col with
    | none => some 0
    | some s => parseFloat? s)

/-- `DataAnalyzer.percentile` (lines 254–274).
`int((p / 100) * (len(values) - 1))` truncates toward zero, which equals
the floor for `p` in the 0–100 scale (the only range the spec defines;
for `p` outside it Python's negative indexing / IndexError is not
modelled). -/
def percentile (data : List Record) (col : String) (p : ℚ) : Option ℚ :=
  match percentileValues data col with
  | none => none
  | some vals =>
    if vals = [] then some 0
    else some ((sortAsc vals).getD (Int.toNat ⌊p / 100 * ((vals.length : ℚ) - 1)⌋) 0)

/-! ### Specification-side definitions

These follow the spec's wording, independently of the implementation
shape, and are compared with the source embeddings in the theorems. -/

/-- Spec side, for the conservation property: the parsed `valueCol`
entries of the whole dataset, in dataset order. -/
def validValues (data : List Record) (valueCol : String) : List ℚ :=
  data.filterMap (fun row => (getCell row valueCol).bind parseFloat?)

/-- Total of all counts of a cross-tabulation (spec side of the
partition property). -/
def crossTotal (m : List (String × List (String × ℕ))) : ℕ :=
  (m.map (fun kv => (kv.2.map (fun c => c.2)).sum)).sum

/-- Group counts cast to the float-valued mapping `aggregate` returns. -/
def countsAsRat (m : List (String × ℕ)) : List (String × ℚ) :=
  m.map (fun kv => (kv.1, (kv.2 : ℚ)))

/-- `d`-uniform nested value: every path from here to a leaf has length
exactly `d + 1` levels of keys above it.  Every tree `group_by_multi`
builds is uniform because all key tuples of one call share the length
`len(group_cols)`. -/
inductive UniformN : ℕ → NVal → Prop where
  | leaf (q : ℚ) : UniformN 0 (NVal.leaf q)
  | node {d : ℕ} {m : NMap} (h : ∀ p ∈ m, UniformN d p.2) :
      UniformN (d + 1) (NVal.node m)

def UniformM (d : ℕ) (m : NMap) : Prop :=
  ∀ p ∈ m, UniformN d p.2

/-- Reading a nested mapping along a full key path down to a leaf. -/
def lookupPath : NMap → List String → Option ℚ
  | _, [] => none
  | m, [k] =>
    match m.lookup k with
    | some (NVal.leaf q) => some q
    | _ => none
  | m, k :: k2 :: rest =>
    match m.lookup k with
    | some (NVal.node m2) => lookupPath m2 (k2 :: rest)
    | _ => none

/-- Accumulate a list of contributions onto an optional running value
(the life of one leaf of the nested mapping across the fold). -/
def optAdd (o : Option ℚ) : List ℚ → Option ℚ
  | [] => o
  | x :: xs => optAdd (some (o.getD 0 + x)) xs

/-- Spec side of `correlate_metrics`: the Pearson numerator
`nΣxy − ΣxΣy`, the sums written directly over the pair list. -/
def pearsonNum (ps : List (ℚ × ℚ)) : ℚ :=
  (ps.length : ℚ) * (ps.map (fun p => p.1 * p.2)).sum
    - (ps.map (fun p => p.1)).sum * (ps.map (fun p => p.2)).sum

/-- Spec side: the radicand `(nΣx²−(Σx)²)(nΣy²−(Σy)²)`. -/
def pearsonRad (ps : List (ℚ × ℚ)) : ℚ :=
  ((ps.length : ℚ) * (ps.map (fun p => p.1 ^ 2)).sum
      - ((ps.map (fun p => p.1)).sum) ^ 2)
    * ((ps.length : ℚ) * (ps.map (fun p => p.2 ^ 2)).sum
      - ((ps.map (fun p => p.2)).sum) ^ 2)

/-- Spec side: the Pearson denominator `sqrt((nΣx²−(Σx)²)(nΣy²−(Σy)²))`. -/
noncomputable def pearsonDen (ps : List (ℚ × ℚ)) : ℝ :=
  Real.sqrt ((pearsonRad ps : ℚ) : ℝ)

/-- Spec side of `correlate_metrics`: the sum-based Pearson formula
`r = (nΣxy − ΣxΣy) / sqrt((nΣx²−(Σx)²)(nΣy²−(Σy)²))`, with `r = 0` when
the denominator is 0. -/
noncomputable def pearsonR (ps : List (ℚ × ℚ)) : ℝ :=
  if pearsonDen ps ≠ 0 then ((pearsonNum ps : ℚ) : ℝ) / pearsonDen ps else 0

/-- Spec side: strength classification of a coefficient by `|r|`. -/
noncomputable def strengthLabel (r : ℝ) : String :=
  if 0.9 ≤ |r| then "perfect"
  else if 0.7 ≤ |r| then "strong"
  else if 0.5 ≤ |r| then "moderate"
  else if 0 < |r| then "weak"
  else "none"

/-- Spec side: direction classification of a coefficient by its sign. -/
noncomputable def directionLabel (r : ℝ) : String :=
  if 0 < r then "positive" else if r < 0 then "negative" else "none"

/-! ## Theorems -/

theorem upsertList_sum (m : List (String × List ℚ)) (k : String) (v : ℚ) :
    ((upsertList m k v).map (fun kv => kv.2.sum)).sum
      = ((m.map (fun kv => kv.2.sum)).sum) + v := by
  induction m with
  | nil => simp [upsertList]
  | cons hd tl ih =>
    obtain ⟨k', vs⟩ := hd
    by_cases h : k' = k
    · simp [upsertList, h]
      ring
    · simp only [upsertList, if_neg h, List.map_cons, List.sum_cons, ih]
      ring

theorem groupPairs_fold_total (ps : List (String × ℚ)) :
    ∀ acc : List (String × List ℚ),
      (((ps.foldl (fun a p => upsertList a p.1 p.2) acc).map
          (fun kv => kv.2.sum)).sum)
        = ((acc.map (fun kv => kv.2.sum)).sum) + (ps.map (fun p => p.2)).sum := by
  induction ps with
  | nil => intro acc; simp
  | cons p rest ih =>
    intro acc
    simp only [List.foldl_cons, List.map_cons, List.sum_cons, ih, upsertList_sum]
    ring

theorem groupPairs_total (ps : List (String × ℚ)) :
    ((groupPairs ps).map (fun kv => kv.2.sum)).sum = (ps.map (fun p => p.2)).sum := by
  simpa using groupPairs_fold_total ps []

theorem keyValuePairs_values (data : List Record) (gc vc : String) :
    (keyValuePairs data gc vc).map (fun p => p.2) = validValues data vc := by
  induction data with
  | nil => rfl
  | cons r d ih =>
    simp only [keyValuePairs, validValues, List.filterMap_cons] at ih ⊢
    cases h : getCell r vc with
    | none => simpa using ih
    | some s =>
      cases hp : parseFloat? s with
      | none => simpa [hp] using ih
      | some q => simp [hp, ih]

/-- C1: for valid `groupCol`, `valueCol`, the values of
`aggregate(groupCol, valueCol, "sum")` add up to the sum of all `valueCol`
entries of the dataset that parse as floats (conservation of totals). -/
theorem aggregate_sum_conservation (data : List Record) (headers : List String)
    (groupCol valueCol : String) (m : List (String × ℚ))
    (h : aggregate data headers groupCol valueCol "sum" = Except.ok m) :
    (m.map (fun p => p.2)).sum = (validValues data valueCol).sum := by
  unfold aggregate at h
  by_cases hc : groupCol ∉ headers ∨ valueCol ∉ headers
  · simp [hc] at h
  · simp only [if_neg hc, Except.ok.injEq] at h
    have hsum : ∀ vs : List ℚ, aggOp "sum" vs = vs.sum := by
      intro vs; simp [aggOp]
    subst h
    simp only [List.map_map, Function.comp]
    calc ((groupPairs (keyValuePairs data groupCol valueCol)).map
            (fun kv => aggOp "sum" kv.2)).sum
        = ((groupPairs (keyValuePairs data groupCol valueCol)).map
            (fun kv => kv.2.sum)).sum := by simp [hsum]
      _ = ((keyValuePairs data groupCol valueCol).map (fun p => p.2)).sum :=
          groupPairs_total _
      _ = (validValues data valueCol).sum := by rw [keyValuePairs_values]

theorem aggregate_sum_conservation_witness :
    aggregate [[("g","a"),("v","1")],[("g","b"),("v","2")],[("g","a"),("v","x")]]
        ["g","v"] "g" "v" "sum" = Except.ok [("a",1),("b",2)] ∧
      (([("a",(1:ℚ)),("b",2)].map (fun p => p.2)).sum
        = (validValues [[("g","a"),("v","1")],[("g","b"),("v","2")],[("g","a"),("v","x")]] "v").sum) :=
  ⟨by with_unfolding_all rfl,
   aggregate_sum_conservation
     [[("g","a"),("v","1")],[("g","b"),("v","2")],[("g","a"),("v","x")]]
     ["g","v"] "g" "v" [("a",1),("b",2)] (by with_unfolding_all rfl)⟩

theorem upsertList_count (m : List (String × List ℚ)) (k : String) (v : ℚ) :
    (upsertList m k v).map (fun kv => (kv.1, kv.2.length))
      = upsertCount (m.map (fun kv => (kv.1, kv.2.length))) k := by
  induction m with
  | nil => simp [upsertList, upsertCount]
  | cons hd tl ih =>
    obtain ⟨k', vs⟩ := hd
    by_cases h : k' = k
    · simp [upsertList, upsertCount, h]
    · simp [upsertList, upsertCount, h, ih]

theorem isValidNumber_iff (v : Option String) :
    isValidNumber v = true ↔ ∃ s, v = some s ∧ ∃ q, parseFloat? s = some q := by
  cases v <;> simp [isValidNumber, Option.isSome_iff_exists]

theorem count_fold (data : List Record) (gc vc : String) :
    ∀ acc : List (String × List ℚ),
      (∀ r ∈ data, isValidNumber (getCell r vc) = true) →
      ((keyValuePairs data gc vc).foldl (fun a p => upsertList a p.1 p.2) acc).map
          (fun kv => (kv.1, kv.2.length))
        = data.foldl (fun a row => upsertCount a (getKey row gc))
            (acc.map (fun kv => (kv.1, kv.2.length))) := by
  induction data with
  | nil => intro acc _; simp [keyValuePairs]
  | cons r d ih =>
    intro acc hall
    have hr : isValidNumber (getCell r vc) = true := hall r (by simp)
    have hd' : ∀ r' ∈ d, isValidNumber (getCell r' vc) = true :=
      fun r' hr' => hall r' (by simp [hr'])
    obtain ⟨s, hc, q, hp⟩ := (isValidNumber_iff (getCell r vc)).1 hr
    have hkv : keyValuePairs (r :: d) gc vc
        = (getKey r gc, q) :: keyValuePairs d gc vc := by
      simp [keyValuePairs, List.filterMap_cons, hc, hp]
    rw [hkv]
    simp only [List.foldl_cons]
    rw [ih _ hd', upsertList_count]

/-- C4 as stated fails: `aggregate(..., "count")` counts only the records
whose `valueCol` parses, while `groupAndCount` counts every record.  Here
group "a" has two records but only one parseable value. -/
theorem aggregate_count_counterexample :
    aggregate [[("g","a"),("v","1")],[("g","a"),("v","x")]] ["g","v"]
        "g" "v" "count" = Except.ok [("a", 1)] ∧
      groupAndCount [[("g","a"),("v","1")],[("g","a"),("v","x")]] "g" = [("a", 2)] ∧
      ([("a", (1:ℚ))] : List (String × ℚ))
        ≠ countsAsRat [("a", 2)] := by
  refine ⟨by with_unfolding_all rfl, by with_unfolding_all rfl, ?_⟩
  norm_num [countsAsRat]

/-- C4 amended: `aggregate(groupCol, valueCol, "count")[k]` equals
`groupAndCount(groupCol)[k]` for every key `k` provided every record's
`valueCol` parses as a float; in general the former counts only the
records whose `valueCol` parses. -/
theorem aggregate_count_eq_groupAndCount (data : List Record)
    (headers : List String) (gc vc : String) (m : List (String × ℚ))
    (hok : aggregate data headers gc vc "count" = Except.ok m)
    (hall : ∀ r ∈ data, isValidNumber (getCell r vc) = true) :
    m = countsAsRat (groupAndCount data gc) := by
  unfold aggregate at hok
  by_cases hc : gc ∉ headers ∨ vc ∉ headers
  · simp [hc] at hok
  · simp only [if_neg hc, Except.ok.injEq] at hok
    have hcount : ∀ vs : List ℚ, aggOp "count" vs = (vs.length : ℚ) := by
      intro vs; simp [aggOp]
    subst hok
    have hfold := count_fold data gc vc [] hall
    simp only [List.map_nil] at hfold
    unfold groupAndCount countsAsRat
    rw [← hfold]
    unfold groupPairs
    simp [hcount, List.map_map, Function.comp]

theorem aggregate_count_eq_groupAndCount_witness :
    aggregate [[("g","a"),("v","1")],[("g","b"),("v","2")]] ["g","v"]
        "g" "v" "count" = Except.ok [("a", 1), ("b", 1)] ∧
      (∀ r ∈ [[("g","a"),("v","1")],[("g","b"),("v","2")]],
        isValidNumber (getCell r "v") = true) ∧
      ([("a", (1:ℚ)), ("b", 1)] : List (String × ℚ))
        = countsAsRat (groupAndCount [[("g","a"),("v","1")],[("g","b"),("v","2")]] "g") :=
  ⟨by with_unfolding_all rfl,
   by intro r hr
      simp only [List.mem_cons, List.not_mem_nil, or_false] at hr
      rcases hr with h | h <;> (subst h; with_unfolding_all rfl),
   aggregate_count_eq_groupAndCount
     [[("g","a"),("v","1")],[("g","b"),("v","2")]] ["g","v"] "g" "v"
     [("a",1),("b",1)] (by with_unfolding_all rfl)
     (by intro r hr
         simp only [List.mem_cons, List.not_mem_nil, or_false] at hr
         rcases hr with h | h <;> (subst h; with_unfolding_all rfl))⟩

theorem take_succ_take {α : Type} : ∀ (N : ℕ) (l : List α),
    (l.take (N + 1)).take N = l.take N := by
  intro N
  induction N with
  | zero => intro l; simp
  | succ M ih =>
    intro l
    cases l with
    | nil => simp
    | cons a as => simp [List.take_succ_cons, ih]

theorem rankOp_eq_aggOp (op : String) (h1 : op ≠ "min") (h2 : op ≠ "max")
    (vs : List ℚ) : rankOp op vs = aggOp op vs := by
  by_cases ha : op = "avg"
  · simp [rankOp, aggOp, ha]
  · by_cases hc : op = "count"
    · simp [rankOp, aggOp, hc]
    · simp [rankOp, aggOp, ha, hc, h1, h2]

/-- C2 amended: for EVERY operation, `rank(rankCol, valueCol, N, op)`
has at most `N` entries and is a prefix of `rank(rankCol, valueCol,
N+1, op)`; and for every operation other than `"min"` and `"max"` (for
which `rank`'s ops table, which only knows sum/avg/count, silently
falls back to sum while `aggregate` honours them) it is exactly
`aggregate(rankCol, valueCol, op)` sorted descending by value — stably,
so ties keep group-discovery order — and truncated to `N`. -/
theorem rank_refines_aggregate (data : List Record) (headers : List String)
    (rankCol valueCol op : String) (N : ℕ) (m : List (String × ℚ)) :
    (rank data rankCol valueCol N op).length ≤ N ∧
    rank data rankCol valueCol N op <+: rank data rankCol valueCol (N + 1) op ∧
    (op ≠ "min" → op ≠ "max" →
      aggregate data headers rankCol valueCol op = Except.ok m →
      rank data rankCol valueCol N op = (sortDescByValue m).take N) := by
  refine ⟨?_, ?_, ?_⟩
  · unfold rank
    rw [List.length_take]
    exact Nat.min_le_left _ _
  · unfold rank
    rw [← take_succ_take N (sortDescByValue ((groupPairs
      (keyValuePairs data rankCol valueCol)).map
        (fun kv => (kv.1, rankOp op kv.2))))]
    exact List.take_prefix N _
  · intro hmin hmax hok
    have hm : m = (groupPairs (keyValuePairs data rankCol valueCol)).map
        (fun kv => (kv.1, aggOp op kv.2)) := by
      unfold aggregate at hok
      by_cases hc : rankCol ∉ headers ∨ valueCol ∉ headers
      · simp [hc] at hok
      · simp only [if_neg hc, Except.ok.injEq] at hok
        exact hok.symm
    have hmap : (fun kv : String × List ℚ => (kv.1, rankOp op kv.2))
        = (fun kv : String × List ℚ => (kv.1, aggOp op kv.2)) :=
      funext fun kv => by rw [rankOp_eq_aggOp op hmin hmax]
    unfold rank
    rw [hm, hmap]

/-- C2 as stated fails for `op = "min"`: `rank` has no min in its ops
table and sums instead (`1 + 2 = 3`), while `aggregate` takes the
minimum (`1`). -/
theorem rank_min_counterexample :
    aggregate [[("g","a"),("v","1")],[("g","a"),("v","2")]] ["g","v"]
        "g" "v" "min" = Except.ok [("a", 1)] ∧
      rank [[("g","a"),("v","1")],[("g","a"),("v","2")]] "g" "v" 10 "min"
        = [("a", 3)] ∧
      rank [[("g","a"),("v","1")],[("g","a"),("v","2")]] "g" "v" 10 "min"
        ≠ (sortDescByValue [("a", 1)]).take 10 := by
  refine ⟨by with_unfolding_all rfl, by with_unfolding_all rfl, ?_⟩
  have h1 : rank [[("g","a"),("v","1")],[("g","a"),("v","2")]] "g" "v" 10 "min"
      = [("a", 3)] := by with_unfolding_all rfl
  have h2 : (sortDescByValue [("a", (1:ℚ))]).take 10 = [("a", 1)] := by
    with_unfolding_all rfl
  rw [h1, h2]
  norm_num

theorem rank_refines_aggregate_witness :
    (rank [[("g","a"),("v","1")],[("g","b"),("v","5")]] "g" "v" 1 "min").length ≤ 1 ∧
      rank [[("g","a"),("v","1")],[("g","b"),("v","5")]] "g" "v" 1 "min"
        <+: rank [[("g","a"),("v","1")],[("g","b"),("v","5")]] "g" "v" 2 "min" ∧
      ("sum" ≠ "min") ∧ ("sum" ≠ "max") ∧
      aggregate [[("g","a"),("v","1")],[("g","b"),("v","5")]] ["g","v"]
        "g" "v" "sum" = Except.ok [("a", 1), ("b", 5)] ∧
      rank [[("g","a"),("v","1")],[("g","b"),("v","5")]] "g" "v" 1 "sum"
        = (sortDescByValue [("a", 1), ("b", 5)]).take 1 :=
  ⟨(rank_refines_aggregate [[("g","a"),("v","1")],[("g","b"),("v","5")]]
      ["g","v"] "g" "v" "min" 1 []).1,
   (rank_refines_aggregate [[("g","a"),("v","1")],[("g","b"),("v","5")]]
      ["g","v"] "g" "v" "min" 1 []).2.1,
   by decide, by decide, by with_unfolding_all rfl,
   (rank_refines_aggregate [[("g","a"),("v","1")],[("g","b"),("v","5")]]
      ["g","v"] "g" "v" "sum" 1 [("a", 1), ("b", 5)]).2.2
     (by decide) (by decide) (by with_unfolding_all rfl)⟩

/-- C3 as stated fails: apart from `aggregate` (and `group_by_multi`'s
partial check), no operation validates column names — `group_and_count`
(Aggregator) and `rank` (Analyzer) here both accept a column that is not
among the headers and return a normal result instead of raising. -/
theorem no_validation_counterexample :
    ("zzz" ∉ ["a"]) ∧
      groupAndCount [[("a","1")]] "zzz" = [("Unknown", 1)] ∧
      rank [[("a","1")]] "zzz" "a" 5 "sum" = [("Unknown", 1)] :=
  ⟨by decide, by with_unfolding_all rfl, by with_unfolding_all rfl⟩

theorem statValues_all_absent (data : List Record) (col : String)
    (h : ∀ r ∈ data, getCell r col = none) :
    statValues data col = data.map (fun _ => (0 : ℚ)) := by
  induction data with
  | nil => rfl
  | cons r d ih =>
    have hr : getCell r col = none := h r (by simp)
    have hd : ∀ r' ∈ d, getCell r' col = none := fun r' hr' => h r' (by simp [hr'])
    have ihd := ih hd
    simp only [statValues, List.filterMap_cons, hr, List.map_cons] at ihd ⊢
    rw [ihd]

/-- C3 amended: invalid column names raise only in `aggregate` (either of
its two columns unknown) and in `group_by_multi` (empty `groupCols` or
unknown `valueCol`; its group columns are never checked); every other
operation of both components is a total function of the data that never
raises.  For those operations an unknown column falls under each
method's own missing-value policy, and the policies differ: the shared
grouping stream of `aggregate`/`rank` silently excludes a record whose
value column is absent or unparseable, while `get_statistics` (like
`find_outliers` and `percentile`) substitutes 0 for an absent cell via
`row.get(col, 0)` — on a column absent from every record it returns
count = number of records, an all-zeros sample, not an error and not
the empty statistics record. -/
theorem invalid_column_validation (data : List Record) (headers : List String)
    (gc vc op col : String) (gcs : List String) (r : Record) :
    ((∃ m, aggregate data headers gc vc op = Except.ok m)
        ↔ gc ∈ headers ∧ vc ∈ headers) ∧
    ((∃ m, groupByMulti data headers gcs vc op = Except.ok m)
        ↔ gcs ≠ [] ∧ vc ∈ headers) ∧
    (getCell r vc = none → keyValuePairs [r] gc vc = []) ∧
    (∀ s, getCell r vc = some s → parseFloat? s = none →
      keyValuePairs [r] gc vc = []) ∧
    ((∀ r' ∈ data, getCell r' col = none) →
      (getStatistics data col).count = data.length) := by
  refine ⟨?_, ?_, ?_, ?_, ?_⟩
  · unfold aggregate
    by_cases hc : gc ∉ headers ∨ vc ∉ headers
    · rw [if_pos hc]
      simp only [reduceCtorEq, exists_false, false_iff]
      tauto
    · rw [if_neg hc]
      push_neg at hc
      simp [hc.1, hc.2]
  · unfold groupByMulti
    by_cases hc : gcs = [] ∨ vc ∉ headers
    · rw [if_pos hc]
      simp only [reduceCtorEq, exists_false, false_iff]
      tauto
    · rw [if_neg hc]
      push_neg at hc
      simp [hc.1, hc.2]
  · intro h
    simp [keyValuePairs, h]
  · intro s h hp
    simp [keyValuePairs, h, hp]
  · intro hall
    have hsv := statValues_all_absent data col hall
    cases data with
    | nil =>
      unfold getStatistics
      rw [show statValues [] col = [] from rfl]
      rfl
    | cons r' d =>
      simp only [List.map_cons] at hsv
      unfold getStatistics
      rw [hsv]
      simp

theorem invalid_column_validation_witness :
    (∃ m, aggregate [[("a","1")]] ["a"] "a" "a" "sum" = Except.ok m) ∧
      (∀ r' ∈ [[("z","1")]], getCell r' "x" = none) ∧
      (getStatistics [[("z","1")]] "x").count = 1 :=
  ⟨(invalid_column_validation [[("a","1")]] ["a"] "a" "a" "sum" "a" ["a"]
      [("a","1")]).1.mpr ⟨by decide, by decide⟩,
   by intro r' hr'
      simp only [List.mem_cons, List.not_mem_nil, or_false] at hr'
      subst hr'
      with_unfolding_all rfl,
   (invalid_column_validation [[("z","1")]] ["a"] "a" "a" "sum" "x" ["a"]
      [("z","1")]).2.2.2.2
     (by intro r' hr'
         simp only [List.mem_cons, List.not_mem_nil, or_false] at hr'
         subst hr'
         with_unfolding_all rfl)⟩

/-- C5: the claim says `percentile` silently excludes non-parseable and
missing values.  The code applies `float` before its (vacuous) validity
filter, so a present non-parseable cell raises `ValueError` out of
`percentile` (first conjunct: `none`, where the claim demands `some 5`),
and an absent cell is INCLUDED as `0.0` via `row.get(col, 0)` (second
conjunct: the row without column "c" contributes 0, making the median
index land on 0 where the claim demands 7). -/
theorem percentile_exception_behaviour :
    percentile [[("c","abc")],[("c","5")]] "c" 50 = none ∧
      percentile [[("c","7")],[("x","1")]] "c" 50 = some 0 :=
  ⟨by with_unfolding_all rfl, by with_unfolding_all rfl⟩

/-- C6 as stated fails: a record whose grouping column holds the empty
string is grouped under the key `""`, not `"Unknown"` — the `"Unknown"`
default of `row.get(groupCol, "Unknown")` applies only to an absent
column. -/
theorem unknown_key_counterexample :
    aggregate [[("g",""),("v","1")]] ["g","v"] "g" "v" "sum"
        = Except.ok [("", 1)] ∧
      ("" : String) ≠ "Unknown" :=
  ⟨by with_unfolding_all rfl, by decide⟩

theorem cmUpdate_keys (a : List (String × List (String × List ℚ)))
    (k mc : String) (q : ℚ) :
    (cmUpdate a k mc q).map (fun g => g.1) = a.map (fun g => g.1) := by
  induction a with
  | nil => rfl
  | cons hd tl ih =>
    obtain ⟨k', inner⟩ := hd
    by_cases h : k' = k
    · simp [cmUpdate, h]
    · simp [cmUpdate, h, ih]

theorem cmFold_keys (r : Record) (k : String) (mcs : List (String))
    (a : List (String × List (String × List ℚ))) :
    ((mcs.foldl (fun a' mc =>
        match getCell r mc with
        | none => a'
        | some s =>
          match parseFloat? s with
          | none => a'
          | some q => cmUpdate a' k mc q) a).map (fun g => g.1))
      = a.map (fun g => g.1) := by
  induction mcs generalizing a with
  | nil => rfl
  | cons mc rest ih =>
    simp only [List.foldl_cons]
    cases hc : getCell r mc with
    | none =>
      simp only [hc]
      exact ih a
    | some s =>
      cases hp : parseFloat? s with
      | none =>
        simp only [hc, hp]
        exact ih a
      | some q =>
        simp only [hc, hp]
        rw [ih (cmUpdate a k mc q), cmUpdate_keys]

/-- C6 amended: every grouping operation keys a record by
`row.get(groupCol, "Unknown")`: the literal `"Unknown"` is used only when
the grouping column is ABSENT from the record; a present value — the
empty string included — is used verbatim as the group key, and keys are
compared by exact string equality.  Shown for the key policy itself and
for each grouping operation on a single record: `group_and_count`,
`cross_tabulation`, the shared stream of `aggregate`/`rank`,
`group_by_multi`'s key tuples, and `compare_metrics`. -/
theorem grouping_key_policy (r : Record) (c gc vc c1 c2 : String)
    (gcs mcs : List String) (s : String) (q : ℚ) :
    (getCell r c = none → getKey r c = "Unknown") ∧
    (getCell r c = some s → getKey r c = s) ∧
    groupAndCount [r] gc = [(getKey r gc, 1)] ∧
    crossTabulation [r] c1 c2 = [(getKey r c1, [(getKey r c2, 1)])] ∧
    (getCell r vc = some s → parseFloat? s = some q →
      keyValuePairs [r] gc vc = [(getKey r gc, q)]) ∧
    (getCell r vc = some s → parseFloat? s = some q →
      multiPairs [r] gcs vc = [(gcs.map (fun c' => getKey r c'), q)]) ∧
    (compareMetrics [r] gc mcs).map (fun g => g.1) = [getKey r gc] := by
  refine ⟨?_, ?_, ?_, ?_, ?_, ?_, ?_⟩
  · intro h; simp [getKey, h]
  · intro h; simp [getKey, h]
  · rfl
  · rfl
  · intro h hp; simp [keyValuePairs, h, hp]
  · intro h hp; simp [multiPairs, h, hp]
  · unfold compareMetrics
    rw [List.map_map]
    simp only [List.foldl_cons, List.foldl_nil]
    unfold cmStep
    simp only [List.lookup_nil, Option.isSome_none, Bool.false_eq_true,
      if_false, List.nil_append]
    rw [show ((fun g : String × List (String × ℚ) => g.1) ∘
      (fun g : String × List (String × List ℚ) =>
        (g.1, g.2.map (fun m => (m.1, if m.2 = [] then 0 else m.2.sum / m.2.length)))))
      = (fun g : String × List (String × List ℚ) => g.1) from rfl]
    rw [cmFold_keys]
    rfl

theorem grouping_key_policy_witness :
    getCell [("v","2")] "g" = none ∧ getKey [("v","2")] "g" = "Unknown" :=
  ⟨by with_unfolding_all rfl,
   (grouping_key_policy [("v","2")] "g" "g" "v" "a" "b" ["g"] ["v"] "2" 2).1
     (by with_unfolding_all rfl)⟩

theorem upsertCount_sum (inner : List (String × ℕ)) (k : String) :
    ((upsertCount inner k).map (fun c => c.2)).sum
      = (inner.map (fun c => c.2)).sum + 1 := by
  induction inner with
  | nil => rfl
  | cons hd tl ih =>
    obtain ⟨k', n⟩ := hd
    by_cases h : k' = k
    · simp [upsertCount, h]
      ring
    · simp only [upsertCount, if_neg h, List.map_cons, List.sum_cons, ih]
      ring

theorem upsertCross_total (m : List (String × List (String × ℕ)))
    (k1 k2 : String) :
    crossTotal (upsertCross m k1 k2) = crossTotal m + 1 := by
  induction m with
  | nil => rfl
  | cons hd tl ih =>
    obtain ⟨k, inner⟩ := hd
    by_cases h : k = k1
    · simp only [upsertCross, if_pos h, crossTotal, List.map_cons, List.sum_cons,
        upsertCount_sum]
      ring
    · simp only [upsertCross, if_neg h, crossTotal, List.map_cons, List.sum_cons] at ih ⊢
      rw [ih]
      ring

theorem crossTab_fold_total (data : List Record) (c1 c2 : String) :
    ∀ acc, crossTotal (data.foldl
        (fun a row => upsertCross a (getKey row c1) (getKey row c2)) acc)
      = crossTotal acc + data.length := by
  induction data with
  | nil => intro acc; simp
  | cons r d ih =>
    intro acc
    simp only [List.foldl_cons, List.length_cons, ih, upsertCross_total]
    ring

theorem upsertCount_pos (inner : List (String × ℕ)) (k : String)
    (h : ∀ p ∈ inner, 1 ≤ p.2) : ∀ p ∈ upsertCount inner k, 1 ≤ p.2 := by
  induction inner with
  | nil =>
    intro p hp
    simp only [upsertCount, List.mem_singleton] at hp
    simp [hp]
  | cons hd tl ih =>
    obtain ⟨k', n⟩ := hd
    intro p hp
    by_cases hk : k' = k
    · simp only [upsertCount, if_pos hk, List.mem_cons] at hp
      rcases hp with hp | hp
      · simp [hp]
      · exact h p (by simp [hp])
    · simp only [upsertCount, if_neg hk, List.mem_cons] at hp
      rcases hp with hp | hp
      · exact h p (by simp [hp])
      · exact ih (fun p' hp' => h p' (by simp [hp'])) p hp

theorem upsertCross_pos (m : List (String × List (String × ℕ)))
    (k1 k2 : String) (h : ∀ p ∈ m, ∀ c ∈ p.2, 1 ≤ c.2) :
    ∀ p ∈ upsertCross m k1 k2, ∀ c ∈ p.2, 1 ≤ c.2 := by
  induction m with
  | nil =>
    intro p hp
    simp only [upsertCross, List.mem_singleton] at hp
    subst hp
    intro c hc
    simp only [List.mem_singleton] at hc
    simp [hc]
  | cons hd tl ih =>
    obtain ⟨k, inner⟩ := hd
    intro p hp
    by_cases hk : k = k1
    · simp only [upsertCross, if_pos hk, List.mem_cons] at hp
      rcases hp with hp | hp
      · subst hp
        exact upsertCount_pos inner k2 (fun c hc => h (k, inner) (by simp) c hc)
      · exact h p (by simp [hp])
    · simp only [upsertCross, if_neg hk, List.mem_cons] at hp
      rcases hp with hp | hp
      · exact h p (by simp [hp])
      · exact ih (fun p' hp' => h p' (by simp [hp'])) p hp

theorem crossTab_fold_pos (data : List Record) (c1 c2 : String) :
    ∀ acc, (∀ p ∈ acc, ∀ c ∈ p.2, 1 ≤ c.2) →
      ∀ p ∈ data.foldl
          (fun a row => upsertCross a (getKey row c1) (getKey row c2)) acc,
        ∀ c ∈ p.2, 1 ≤ c.2 := by
  induction data with
  | nil => intro acc hacc; simpa using hacc
  | cons r d ih =>
    intro acc hacc
    simp only [List.foldl_cons]
    exact ih _ (upsertCross_pos acc (getKey r c1) (getKey r c2) hacc)

/-- C10: every record lands in exactly one cell of
`crossTabulation(col1, col2)` — the counts add up to the number of
records, and every stored count is at least 1. -/
theorem crossTabulation_partition (data : List Record) (c1 c2 : String) :
    crossTotal (crossTabulation data c1 c2) = data.length ∧
      ∀ p ∈ crossTabulation data c1 c2, ∀ cell ∈ p.2, 1 ≤ cell.2 := by
  constructor
  · unfold crossTabulation
    simpa [crossTotal] using crossTab_fold_total data c1 c2 []
  · unfold crossTabulation
    exact crossTab_fold_pos data c1 c2 [] (by simp)

theorem crossTabulation_partition_witness :
    crossTotal (crossTabulation [[("a","x")],[("a","x")]] "a" "b") = 2 ∧
      ("x", [("Unknown", 2)]) ∈ crossTabulation [[("a","x")],[("a","x")]] "a" "b" ∧
      1 ≤ (("Unknown", 2) : String × ℕ).2 :=
  ⟨(crossTabulation_partition [[("a","x")],[("a","x")]] "a" "b").1,
   by with_unfolding_all decide,
   (crossTabulation_partition [[("a","x")],[("a","x")]] "a" "b").2
     ("x", [("Unknown", 2)]) (by with_unfolding_all decide)
     ("Unknown", 2) (by with_unfolding_all decide)⟩

theorem insertAsc_length {α : Type} (le : α → α → Bool) (a : α) (l : List α) :
    (insertAsc le a l).length = l.length + 1 := by
  induction l with
  | nil => rfl
  | cons b bs ih =>
    by_cases h : le b a
    · simp [insertAsc, h, ih]
    · simp [insertAsc, h]

theorem stableSort_fold_length {α : Type} (le : α → α → Bool) (l : List α) :
    ∀ acc : List α,
      (l.foldl (fun a x => insertAsc le x a) acc).length = acc.length + l.length := by
  induction l with
  | nil => intro acc; simp
  | cons x xs ih =>
    intro acc
    simp only [List.foldl_cons, ih, insertAsc_length, List.length_cons]
    ring

theorem stableSort_length {α : Type} (le : α → α → Bool) (l : List α) :
    (stableSort le l).length = l.length := by
  simpa using stableSort_fold_length le l []

theorem sortAsc_length (l : List ℚ) : (sortAsc l).length = l.length :=
  stableSort_length _ l

/-- C8 as stated fails: `get_statistics` collects `row.get(col, 0)`, so
a record LACKING the column contributes the value 0 instead of being
excluded.  On `[{z:1}]` the column "x" has zero parseable values (first
conjunct) yet the returned count is 1, not the claimed count-0 record;
on `[{x:10}, {z:1}]` the parseable values are just `[10]` yet the
median is computed over the 0-padded sample `[10, 0]`, giving 5 where
the claim demands 10. -/
theorem getStatistics_zero_valid_counterexample :
    validValues [[("z","1")]] "x" = [] ∧
      (getStatistics [[("z","1")]] "x").count = 1 ∧
      validValues [[("x","10")],[("z","1")]] "x" = [10] ∧
      (getStatistics [[("x","10")],[("z","1")]] "x").median = 5 :=
  ⟨by with_unfolding_all rfl, by with_unfolding_all rfl,
   by with_unfolding_all rfl, by with_unfolding_all rfl⟩

/-- C8 amended: `getStatistics` computes over the COLLECTED values of
the column — each record contributes its cell's parsed value, is
skipped if the cell is present but unparseable, and contributes 0 if
the column is absent (`row.get(col, 0)`).  On at least one collected
value it returns the standard even/odd median of the sorted collected
values, the sample (n−1) standard deviation — 0 when the count is 1 —
and `range = max − min`; the all-zero record with count 0 is returned
exactly when nothing is collected (the dataset is empty or every
record's cell is present but unparseable). -/
theorem getStatistics_spec (data : List Record) (col : String) :
    (statValues data col = [] →
      getStatistics data col = ⟨0, 0, 0, 0, 0, 0, 0, 0⟩) ∧
    (∀ v vs, statValues data col = v :: vs →
      ((v :: vs).length % 2 = 1 →
        (getStatistics data col).median
          = (sortAsc (v :: vs)).getD ((v :: vs).length / 2) 0) ∧
      ((v :: vs).length % 2 = 0 →
        (getStatistics data col).median
          = ((sortAsc (v :: vs)).getD ((v :: vs).length / 2 - 1) 0
              + (sortAsc (v :: vs)).getD ((v :: vs).length / 2) 0) / 2) ∧
      ((v :: vs).length = 1 → (getStatistics data col).std_dev = 0) ∧
      (1 < (v :: vs).length →
        (getStatistics data col).std_dev
          = Real.sqrt (((((v :: vs).map
                (fun x => (x - (v :: vs).sum / (v :: vs).length) ^ 2)).sum : ℚ) : ℝ)
              / (((v :: vs).length : ℝ) - 1))) ∧
      (getStatistics data col).range
        = (getStatistics data col).max - (getStatistics data col).min ∧
      (getStatistics data col).count = (v :: vs).length) := by
  constructor
  · intro h
    unfold getStatistics
    rw [h]
  · intro v vs h
    unfold getStatistics
    rw [h]
    have hlen : (sortAsc (v :: vs)).length = (v :: vs).length :=
      sortAsc_length (v :: vs)
    refine ⟨?_, ?_, ?_, ?_, ?_, ?_⟩
    · intro hodd
      simp only [medianOf, hlen, hodd]
      rfl
    · intro heven
      simp only [medianOf, hlen, heven]
      norm_num
    · intro h1
      simp only [h1]
      rfl
    · intro h1
      simp only [if_pos h1, sampleStdDev]
    · rfl
    · rfl

theorem getStatistics_spec_witness :
    statValues [[("x","10")],[("x","20")],[("x","30")],[("x","40")],[("x","50")]] "x"
        = [10, 20, 30, 40, 50] ∧
      ([( 10 : ℚ), 20, 30, 40, 50].length % 2 = 1) ∧
      (getStatistics [[("x","10")],[("x","20")],[("x","30")],[("x","40")],[("x","50")]] "x").median
        = 30 ∧
      statValues [[("x","10")],[("x","20")],[("x","30")],[("x","40")]] "x"
        = [10, 20, 30, 40] ∧
      ([(10 : ℚ), 20, 30, 40].length % 2 = 0) ∧
      (getStatistics [[("x","10")],[("x","20")],[("x","30")],[("x","40")]] "x").median
        = 25 :=
  ⟨by with_unfolding_all rfl, by decide,
   Eq.trans
     (((getStatistics_spec
         [[("x","10")],[("x","20")],[("x","30")],[("x","40")],[("x","50")]] "x").2
       10 [20, 30, 40, 50] (by with_unfolding_all rfl)).1 (by decide))
     (by with_unfolding_all rfl),
   by with_unfolding_all rfl, by decide,
   Eq.trans
     (((getStatistics_spec
         [[("x","10")],[("x","20")],[("x","30")],[("x","40")]] "x").2
       10 [20, 30, 40] (by with_unfolding_all rfl)).2.1 (by decide))
     (by with_unfolding_all rfl)⟩

theorem corrSums_fold (ps : List (ℚ × ℚ)) :
    ∀ a : CorrSums,
      ps.foldl (fun a p =>
          ⟨a.sum_x + p.1, a.sum_y + p.2, a.sum_xy + p.1 * p.2,
           a.sum_x2 + p.1 ^ 2, a.sum_y2 + p.2 ^ 2⟩) a
        = ⟨a.sum_x + (ps.map (fun p => p.1)).sum,
           a.sum_y + (ps.map (fun p => p.2)).sum,
           a.sum_xy + (ps.map (fun p => p.1 * p.2)).sum,
           a.sum_x2 + (ps.map (fun p => p.1 ^ 2)).sum,
           a.sum_y2 + (ps.map (fun p => p.2 ^ 2)).sum⟩ := by
  induction ps with
  | nil =>
    intro a
    obtain ⟨x, y, xy, x2, y2⟩ := a
    simp
  | cons p rest ih =>
    intro a
    simp only [List.foldl_cons, List.map_cons, List.sum_cons, ih,
      CorrSums.mk.injEq]
    refine ⟨by ring, by ring, by ring, by ring, by ring⟩

theorem corrSums_eq (ps : List (ℚ × ℚ)) :
    corrSums ps
      = ⟨(ps.map (fun p => p.1)).sum, (ps.map (fun p => p.2)).sum,
         (ps.map (fun p => p.1 * p.2)).sum, (ps.map (fun p => p.1 ^ 2)).sum,
         (ps.map (fun p => p.2 ^ 2)).sum⟩ := by
  simpa using corrSums_fold ps ⟨0, 0, 0, 0, 0⟩

/-- C7: `correlate_metrics` returns `(0, "none", "none")` on fewer than
2 valid pairs; otherwise its coefficient is the sum-formula Pearson
coefficient rounded to 4 decimals — 0 whenever the denominator is 0 —
its strength is classified by `|r|` at the 0.9 / 0.7 / 0.5 / 0
thresholds and its direction by the sign of `r`. -/
theorem correlateMetrics_spec (data : List Record) (c1 c2 : String) :
    ((pairsOf data c1 c2).length < 2 →
      correlateMetrics data c1 c2 = ⟨0, "none", "none"⟩) ∧
    (2 ≤ (pairsOf data c1 c2).length →
      correlateMetrics data c1 c2
          = ⟨round4 (pearsonR (pairsOf data c1 c2)),
             strengthLabel (pearsonR (pairsOf data c1 c2)),
             directionLabel (pearsonR (pairsOf data c1 c2))⟩ ∧
        (pearsonDen (pairsOf data c1 c2) = 0 →
          (correlateMetrics data c1 c2).correlation = 0)) := by
  constructor
  · intro hlt
    simp only [correlateMetrics, if_pos hlt]
  · intro hge
    have hlt : ¬ (pairsOf data c1 c2).length < 2 := not_lt.mpr hge
    have hmain : correlateMetrics data c1 c2
        = ⟨round4 (pearsonR (pairsOf data c1 c2)),
           strengthLabel (pearsonR (pairsOf data c1 c2)),
           directionLabel (pearsonR (pairsOf data c1 c2))⟩ := by
      simp only [correlateMetrics, if_neg hlt, corrSums_eq]
      rfl
    refine ⟨hmain, fun hden => ?_⟩
    rw [hmain]
    simp [pearsonR, hden, round4]

theorem correlateMetrics_spec_witness :
    (pairsOf [] "x" "y").length < 2 ∧
      correlateMetrics [] "x" "y" = ⟨0, "none", "none"⟩ :=
  ⟨by decide, (correlateMetrics_spec [] "x" "y").1 (by decide)⟩

theorem upsertN_lookup_self (m : NMap) (k : String) (f : Option NVal → NVal) :
    (upsertN m k f).lookup k = some (f (m.lookup k)) := by
  induction m with
  | nil => simp [upsertN]
  | cons hd tl ih =>
    obtain ⟨k', v⟩ := hd
    by_cases h : k' = k
    · subst h
      simp [upsertN]
    · have hb : (k == k') = false := beq_eq_false_iff_ne.mpr (Ne.symm h)
      simp [upsertN, h, List.lookup_cons, hb, ih]

theorem upsertN_lookup_other (m : NMap) (k : String) (f : Option NVal → NVal)
    (k' : String) (h : k' ≠ k) :
    (upsertN m k f).lookup k' = m.lookup k' := by
  induction m with
  | nil =>
    have hb : (k' == k) = false := beq_eq_false_iff_ne.mpr h
    simp [upsertN, List.lookup_cons, hb]
  | cons hd tl ih =>
    obtain ⟨k'', v⟩ := hd
    by_cases hk : k'' = k
    · subst hk
      have hb : (k' == k'') = false := beq_eq_false_iff_ne.mpr h
      simp [upsertN, List.lookup_cons, hb]
    · simp [upsertN, hk, List.lookup_cons, ih]

theorem upsertN_mem (m : NMap) (k : String) (f : Option NVal → NVal) :
    ∀ p ∈ upsertN m k f, p ∈ m ∨ p = (k, f (m.lookup k)) := by
  induction m with
  | nil =>
    intro p hp
    right
    have hp' : p = (k, f none) := by simpa [upsertN] using hp
    simpa using hp'
  | cons hd tl ih =>
    obtain ⟨k', v⟩ := hd
    intro p hp
    by_cases h : k' = k
    · subst h
      have hrw : upsertN ((k', v) :: tl) k' f = (k', f (some v)) :: tl := by
        simp [upsertN]
      rw [hrw] at hp
      rcases List.mem_cons.mp hp with hp1 | hp2
      · right
        rw [List.lookup_cons_self]
        exact hp1
      · left
        exact List.mem_cons_of_mem _ hp2
    · have hrw : upsertN ((k', v) :: tl) k f = (k', v) :: upsertN tl k f := by
        simp [upsertN, h]
      rw [hrw] at hp
      have hb : (k == k') = false := beq_eq_false_iff_ne.mpr (Ne.symm h)
      have hlk : ((k', v) :: tl).lookup k = tl.lookup k := by
        simp [List.lookup_cons, hb]
      rcases List.mem_cons.mp hp with hp1 | hp2
      · left
        simp [hp1]
      · rcases ih p hp2 with hin | heq
        · left
          exact List.mem_cons_of_mem _ hin
        · right
          rw [hlk]
          exact heq

theorem nmap_lookup_mem (m : NMap) (k : String) (nv : NVal)
    (h : m.lookup k = some nv) : (k, nv) ∈ m := by
  induction m with
  | nil => simp at h
  | cons hd tl ih =>
    obtain ⟨k', v⟩ := hd
    by_cases hk : k = k'
    · subst hk
      simp only [List.lookup_cons_self, Option.some.injEq] at h
      simp [h]
    · have hb : (k == k') = false := beq_eq_false_iff_ne.mpr hk
      simp only [List.lookup_cons, hb] at h
      simp [ih h]

theorem uniformM_buildNested (keys : List String) :
    ∀ (acc : NMap) (v : ℚ) (L : ℕ), keys.length = L + 1 → UniformM L acc →
      UniformM L (buildNested acc keys v) := by
  induction keys with
  | nil => intro acc v L hlen; simp at hlen
  | cons k ks ih =>
    intro acc v L hlen hu
    cases ks with
    | nil =>
      have hL : L = 0 := by simpa using hlen
      subst hL
      intro p hp
      rcases upsertN_mem acc k _ p hp with hin | heq
      · exact hu p hin
      · subst heq
        cases hl : acc.lookup k with
        | none => simp [hl]; exact UniformN.leaf v
        | some nv =>
          have hnv := hu (k, nv) (nmap_lookup_mem acc k nv hl)
          cases hnv with
          | leaf q => simp [hl]; exact UniformN.leaf (q + v)
    | cons k2 rest =>
      have hL : ∃ e, L = e + 1 := by
        cases L with
        | zero => simp only [List.length_cons] at hlen; omega
        | succ e => exact ⟨e, rfl⟩
      obtain ⟨e, rfl⟩ := hL
      have hklen : (k2 :: rest).length = e + 1 := by
        simpa using hlen
      intro p hp
      rcases upsertN_mem acc k _ p hp with hin | heq
      · exact hu p hin
      · subst heq
        cases hl : acc.lookup k with
        | none =>
          simp only [hl]
          exact UniformN.node (ih [] v e hklen (by intro q hq; simp at hq))
        | some nv =>
          have hnv := hu (k, nv) (nmap_lookup_mem acc k nv hl)
          cases hnv with
          | node hm =>
            simp only [hl]
            exact UniformN.node (ih _ v e hklen hm)

theorem lookupPath_nil_of_ne (path : List String) (h : path ≠ []) :
    lookupPath [] path = none := by
  cases path with
  | nil => exact absurd rfl h
  | cons p ps => cases ps <;> rfl

theorem lookupPath_buildNested (keys : List String) :
    ∀ (path : List String) (acc : NMap) (v : ℚ) (L : ℕ),
      keys.length = L + 1 → path.length = L + 1 → UniformM L acc →
      lookupPath (buildNested acc keys v) path
        = if path = keys then some ((lookupPath acc keys).getD 0 + v)
          else lookupPath acc path := by
  induction keys with
  | nil => intro path acc v L hklen _ _; simp at hklen
  | cons k ks ih =>
    intro path acc v L hklen hplen hu
    cases ks with
    | nil =>
      have hL : L = 0 := by simpa using hklen
      subst hL
      obtain ⟨p, rfl⟩ : ∃ p, path = [p] := by
        cases path with
        | nil => simp at hplen
        | cons p ps =>
          cases ps with
          | nil => exact ⟨p, rfl⟩
          | cons _ _ => simp at hplen
      by_cases hpk : p = k
      · subst hpk
        rw [if_pos rfl]
        cases hl : acc.lookup p with
        | none =>
          simp [buildNested, lookupPath, upsertN_lookup_self, hl]
        | some nv =>
          have hnv := hu (p, nv) (nmap_lookup_mem acc p nv hl)
          cases hnv with
          | leaf q =>
            simp [buildNested, lookupPath, upsertN_lookup_self, hl]
      · rw [if_neg (by simpa using hpk)]
        simp [buildNested, lookupPath, upsertN_lookup_other acc k _ p hpk]
    | cons k2 rest =>
      obtain ⟨e, rfl⟩ : ∃ e, L = e + 1 := by
        cases L with
        | zero => simp only [List.length_cons] at hklen; omega
        | succ e => exact ⟨e, rfl⟩
      have hkt : (k2 :: rest).length = e + 1 := by simpa using hklen
      obtain ⟨p, p2, pr, rfl⟩ : ∃ p p2 pr, path = p :: p2 :: pr := by
        cases path with
        | nil => simp at hplen
        | cons p ps =>
          cases ps with
          | nil => simp only [List.length_cons, List.length_nil] at hplen; omega
          | cons p2 pr => exact ⟨p, p2, pr, rfl⟩
      have hpt : (p2 :: pr).length = e + 1 := by simpa using hplen
      by_cases hpk : p = k
      · subst hpk
        cases hl : acc.lookup p with
        | none =>
          have hbuild : lookupPath (buildNested acc (p :: k2 :: rest) v) (p :: p2 :: pr)
              = lookupPath (buildNested [] (k2 :: rest) v) (p2 :: pr) := by
            simp [buildNested, lookupPath, upsertN_lookup_self, hl]
          rw [hbuild, ih (p2 :: pr) [] v e hkt hpt (by intro q hq; simp at hq)]
          by_cases htail : p2 :: pr = k2 :: rest
          · rw [if_pos htail, if_pos (by rw [htail])]
            rw [lookupPath_nil_of_ne _ (by simp)]
            have hacc : lookupPath acc (p :: k2 :: rest) = none := by
              simp [lookupPath, hl]
            rw [hacc]
          · rw [if_neg htail, if_neg (by simp [htail])]
            rw [lookupPath_nil_of_ne _ (by simp)]
            simp [lookupPath, hl]
        | some nv =>
          have hnv := hu (p, nv) (nmap_lookup_mem acc p nv hl)
          cases hnv with
          | node hm =>
            rename_i m'
            have hbuild : lookupPath (buildNested acc (p :: k2 :: rest) v) (p :: p2 :: pr)
                = lookupPath (buildNested m' (k2 :: rest) v) (p2 :: pr) := by
              simp [buildNested, lookupPath, upsertN_lookup_self, hl]
            rw [hbuild, ih (p2 :: pr) m' v e hkt hpt hm]
            have hacc1 : lookupPath acc (p :: k2 :: rest) = lookupPath m' (k2 :: rest) := by
              simp [lookupPath, hl]
            have hacc2 : lookupPath acc (p :: p2 :: pr) = lookupPath m' (p2 :: pr) := by
              simp [lookupPath, hl]
            by_cases htail : p2 :: pr = k2 :: rest
            · rw [if_pos htail, if_pos (by rw [htail]), hacc1]
            · rw [if_neg htail, if_neg (by simp [htail]), hacc2]
      · have hlk : (buildNested acc (k :: k2 :: rest) v).lookup p = acc.lookup p := by
          simp only [buildNested]
          exact upsertN_lookup_other acc k _ p hpk
        have hcons : ∀ m : NMap, lookupPath m (p :: p2 :: pr)
            = (match m.lookup p with
               | some (NVal.node m2) => lookupPath m2 (p2 :: pr)
               | _ => none) := fun m => rfl
        rw [if_neg (by simp [hpk]), hcons, hcons, hlk]

theorem optAdd_some (l : List ℚ) : ∀ q, optAdd (some q) l = some (q + l.sum) := by
  induction l with
  | nil => intro q; simp [optAdd]
  | cons x xs ih =>
    intro q
    simp only [optAdd, Option.getD_some, ih, List.sum_cons, Option.some.injEq]
    ring

theorem optAdd_none (l : List ℚ) :
    optAdd none l = if l = [] then none else some l.sum := by
  cases l with
  | nil => rfl
  | cons x xs =>
    simp only [optAdd, Option.getD_none, optAdd_some, List.sum_cons,
      reduceCtorEq, if_false, Option.some.injEq]
    ring

theorem lookupPath_fold (items : List (List String × ℚ)) (L : ℕ) :
    ∀ (acc : NMap) (path : List String),
      UniformM L acc → (∀ it ∈ items, it.1.length = L + 1) →
      path.length = L + 1 →
      lookupPath (items.foldl (fun a kv => buildNested a kv.1 kv.2) acc) path
        = optAdd (lookupPath acc path)
            ((items.filter (fun it => decide (it.1 = path))).map (fun it => it.2)) := by
  induction items with
  | nil => intro acc path _ _ _; simp [optAdd]
  | cons it rest ih =>
    intro acc path hu hlen hplen
    have hit : it.1.length = L + 1 := hlen it (by simp)
    have hrest : ∀ x ∈ rest, x.1.length = L + 1 := fun x hx => hlen x (by simp [hx])
    simp only [List.foldl_cons]
    rw [ih (buildNested acc it.1 it.2) path
        (uniformM_buildNested it.1 acc it.2 L hit hu) hrest hplen]
    rw [lookupPath_buildNested it.1 path acc it.2 L hit hplen hu]
    by_cases hpk : path = it.1
    · subst hpk
      rw [if_pos rfl]
      have hfil : (it :: rest).filter (fun x => decide (x.1 = it.1))
          = it :: rest.filter (fun x => decide (x.1 = it.1)) := by
        simp [List.filter_cons]
      rw [hfil, List.map_cons]
      rfl
    · rw [if_neg hpk]
      have hdec : (decide (it.1 = path)) = false := by
        simp only [decide_eq_false_iff_not]
        exact fun h => hpk h.symm
      simp [List.filter_cons, hdec]

theorem multiPairs_keylen (data : List Record) (gcs : List String) (vc : String) :
    ∀ it ∈ multiPairs data gcs vc, it.1.length = gcs.length := by
  intro it hit
  simp only [multiPairs, List.mem_filterMap] at hit
  obtain ⟨r, _, heq⟩ := hit
  cases hc : getCell r vc with
  | none => simp [hc] at heq
  | some s =>
    cases hp : parseFloat? s with
    | none => simp [hc, hp] at heq
    | some q =>
      simp only [hc, hp, Option.some.injEq] at heq
      rw [← heq]
      simp

/-- C9: `group_by_multi` never consults its operation argument — for
every op the result is that of `op = "sum"` — and the leaf reached by
any full-length key path is the SUM of the parsed `valueCol` values of
the records whose key tuple equals that path (no leaf when no such
record exists). -/
theorem groupByMulti_spec (data : List Record) (headers : List String)
    (gcs : List String) (vc op : String) (m : NMap)
    (hne : gcs ≠ []) (hvc : vc ∈ headers)
    (hok : groupByMulti data headers gcs vc op = Except.ok m) :
    groupByMulti data headers gcs vc op = groupByMulti data headers gcs vc "sum" ∧
    ∀ path : List String, path.length = gcs.length →
      lookupPath m path
        = (if ((multiPairs data gcs vc).filter
              (fun it => decide (it.1 = path))).map (fun it => it.2) = []
           then none
           else some ((((multiPairs data gcs vc).filter
              (fun it => decide (it.1 = path))).map (fun it => it.2)).sum)) := by
  constructor
  · rfl
  · intro path hplen
    have hm : m = (multiPairs data gcs vc).foldl
        (fun a kv => buildNested a kv.1 kv.2) [] := by
      unfold groupByMulti at hok
      rw [if_neg (by simp [hne, hvc])] at hok
      exact (Except.ok.inj hok).symm
    obtain ⟨L, hL⟩ : ∃ L, gcs.length = L + 1 := by
      cases gcs with
      | nil => exact absurd rfl hne
      | cons a as => exact ⟨as.length, rfl⟩
    subst hm
    rw [lookupPath_fold (multiPairs data gcs vc) L [] path
        (by intro q hq; simp at hq)
        (fun it hit => by rw [multiPairs_keylen data gcs vc it hit, hL])
        (by rw [hplen, hL])]
    rw [lookupPath_nil_of_ne path
        (by intro h; rw [h] at hplen; rw [hL] at hplen; simp at hplen)]
    exact optAdd_none _

theorem groupByMulti_spec_witness :
    (["a","b"] : List String) ≠ [] ∧ "v" ∈ ["a","b","v"] ∧
      groupByMulti
          [[("a","x"),("b","y"),("v","1")],[("a","x"),("b","z"),("v","2")],
           [("a","x"),("b","y"),("v","3")]]
          ["a","b","v"] ["a","b"] "v" "avg"
        = Except.ok [("x", NVal.node [("y", NVal.leaf 4), ("z", NVal.leaf 2)])] ∧
      groupByMulti
          [[("a","x"),("b","y"),("v","1")],[("a","x"),("b","z"),("v","2")],
           [("a","x"),("b","y"),("v","3")]]
          ["a","b","v"] ["a","b"] "v" "avg"
        = groupByMulti
            [[("a","x"),("b","y"),("v","1")],[("a","x"),("b","z"),("v","2")],
             [("a","x"),("b","y"),("v","3")]]
            ["a","b","v"] ["a","b"] "v" "sum" ∧
      lookupPath [("x", NVal.node [("y", NVal.leaf 4), ("z", NVal.leaf 2)])]
          ["x","y"] = some 4 :=
  ⟨by decide, by decide, by with_unfolding_all rfl,
   (groupByMulti_spec
     [[("a","x"),("b","y"),("v","1")],[("a","x"),("b","z"),("v","2")],
      [("a","x"),("b","y"),("v","3")]]
     ["a","b","v"] ["a","b"] "v" "avg"
     [("x", NVal.node [("y", NVal.leaf 4), ("z", NVal.leaf 2)])]
     (by decide) (by decide) (by with_unfolding_all rfl)).1,
   Eq.trans
     ((groupByMulti_spec
       [[("a","x"),("b","y"),("v","1")],[("a","x"),("b","z"),("v","2")],
        [("a","x"),("b","y"),("v","3")]]
       ["a","b","v"] ["a","b"] "v" "avg"
       [("x", NVal.node [("y", NVal.leaf 4), ("z", NVal.leaf 2)])]
       (by decide) (by decide) (by with_unfolding_all rfl)).2
       ["x","y"] (by decide))
     (by with_unfolding_all rfl)⟩

end DataAnalysis
